import Mathlib

/-!
Verification of the PageRank core of `src/pagerank.py`.

The Python module computes PageRank over a corpus, a dict mapping each page
name to the set of pages it links to.  We embed the corpus as an association
list over natural-number page identifiers (dict keys are distinct, set values
are duplicate-free lists), and embed Python floats by exact rationals.
`random.choice` / `random.choices` are modelled by an explicit start page and
an oracle `pick` supplying the outcome of each weighted draw.  The unbounded
`while not convergence` loop of `iterate_pagerank` is embedded with explicit
fuel, returning `none` when the fuel is exhausted before convergence.
-/

namespace PageRank

abbrev Page := ℕ

/-- A corpus: the Python dict `page ↦ set of linked pages`, as an association
list.  Keys are the pages; each value is the (duplicate-free) link list. -/
abbrev Corpus := List (Page × List Page)

/-- The key list of the corpus dict (`corpus.keys()`). -/
def keys (c : Corpus) : List Page := c.map Prod.fst

/-- Dict lookup `corpus[p]` (default `[]`; callers only use keys present). -/
def lookupLinks (c : Corpus) (p : Page) : List Page :=
  ((c.find? (fun e => e.1 == p)).map Prod.snd).getD []

/-- Dict lookup in a rank mapping (default `0`; callers use present keys). -/
def lookupRank (pr : List (Page × ℚ)) (p : Page) : ℚ :=
  ((pr.find? (fun e => e.1 == p)).map Prod.snd).getD 0

/-- The graph invariant of the spec's data model: the corpus is non-empty,
its keys are distinct, every link list is duplicate-free, every linked page
is a key, and no page links to itself. -/
def validCorpus (c : Corpus) : Prop :=
  c ≠ [] ∧ (keys c).Nodup ∧
    ∀ e ∈ c, e.2.Nodup ∧ (∀ p ∈ e.2, p ∈ keys c) ∧ e.1 ∉ e.2

instance validCorpus.instDecidable (c : Corpus) : Decidable (validCorpus c) := by
  unfold validCorpus
  exact inferInstance

/-- `transition_model(corpus, page, damping_factor)` from `src/pagerank.py`:
if the page has outbound links, every page gets `(1-d)/N`, and each linked
page additionally gets `d / L`; otherwise every page gets `1/N`. -/
def transition_model (corpus : Corpus) (page : Page) (damping_factor : ℚ) :
    List (Page × ℚ) :=
  let pages := keys corpus
  let n_pages : ℚ := pages.length
  let links := lookupLinks corpus page
  if links ≠ [] then
    pages.map (fun p =>
      (p, (1 - damping_factor) / n_pages +
        if p ∈ links then damping_factor / (links.length : ℚ) else 0))
  else
    pages.map (fun p => (p, 1 / n_pages))

/-- `counts[current_page] += 1` on the visit-count dict, as a function. -/
def bumpCount (counts : Page → ℕ) (p : Page) : Page → ℕ :=
  fun q => if q = p then counts q + 1 else counts q

/-- The sampling loop of `sample_pagerank`: on each of the `n` iterations,
increment the current page's counter, form its transition model, and move to
the page drawn by the weighted choice (modelled by the oracle `pick`). -/
def sampleWalk (corpus : Corpus) (d : ℚ) (pick : ℕ → List (Page × ℚ) → Page) :
    ℕ → Page → (Page → ℕ) → (Page → ℕ)
  | 0, _, counts => counts
  | n + 1, cur, counts =>
      sampleWalk corpus d pick n
        (pick n (transition_model corpus cur d)) (bumpCount counts cur)

/-- `sample_pagerank(corpus, damping_factor, n)` from `src/pagerank.py`.
The start page (Python `random.choice(pages)`) and the weighted draws
(Python `random.choices`) are explicit parameters.  Python's `range(n)` for
`n ≤ 0` is empty, so the walk performs `n.toNat` steps; the final division
is by `n` itself. -/
def sample_pagerank (corpus : Corpus) (damping_factor : ℚ) (n : ℤ)
    (start : Page) (pick : ℕ → List (Page × ℚ) → Page) : List (Page × ℚ) :=
  let counts := sampleWalk corpus damping_factor pick n.toNat start (fun _ => 0)
  corpus.map (fun e => (e.1, (counts e.1 : ℚ) / (n : ℚ)))

/-- `corpus[possible_page] if corpus[possible_page] else set(corpus.keys())`:
a dangling page is treated as linking to every page. -/
def effLinks (corpus : Corpus) (ls : List Page) : List Page :=
  if ls = [] then keys corpus else ls

/-- The body of the inner loop of `iterate_pagerank`: the new rank of `page`
is `(1-d)/N + d * Σ_{q : page ∈ links(q)} rank(q) / len(links(q))`, with a
dangling `q`'s link set replaced by the full key set. -/
def newRank (corpus : Corpus) (d : ℚ) (f : Page → ℚ) (page : Page) : ℚ :=
  (1 - d) / (corpus.length : ℚ) +
    d * (corpus.map (fun e =>
      if page ∈ effLinks corpus e.2 then
        f e.1 / ((effLinks corpus e.2).length : ℚ)
      else 0)).sum

/-- One sweep of `iterate_pagerank`: build `new_pagerank` for every page from
the same previous snapshot `pr`. -/
def sweep (corpus : Corpus) (d : ℚ) (pr : List (Page × ℚ)) :
    List (Page × ℚ) :=
  corpus.map (fun e => (e.1, newRank corpus d (lookupRank pr) e.1))

/-- The fixed convergence threshold of `iterate_pagerank`. -/
def threshold : ℚ := 1 / 1000

/-- The convergence flag computed during a sweep: `true` unless some page's
rank moved by more than `threshold`. -/
def convCheck (corpus : Corpus) (old npr : List (Page × ℚ)) : Bool :=
  (keys corpus).all
    (fun p => decide (|lookupRank npr p - lookupRank old p| ≤ threshold))

/-- The `while not convergence` loop of `iterate_pagerank`, with fuel:
sweep, stop with the fresh mapping once no rank moved by more than the
threshold, otherwise continue from the fresh mapping. -/
def iterLoop (corpus : Corpus) (d : ℚ) :
    ℕ → List (Page × ℚ) → Option (List (Page × ℚ))
  | 0, _ => none
  | fuel + 1, pr =>
      let npr := sweep corpus d pr
      if convCheck corpus pr npr then some npr else iterLoop corpus d fuel npr

/-- `pagerank = {page: 1 / N for page in corpus}`. -/
def initRank (corpus : Corpus) : List (Page × ℚ) :=
  corpus.map (fun e => (e.1, 1 / (corpus.length : ℚ)))

/-- The final renormalization of `iterate_pagerank`: divide every rank by the
total rank. -/
def normalize (pr : List (Page × ℚ)) : List (Page × ℚ) :=
  pr.map (fun e => (e.1, e.2 / (pr.map Prod.snd).sum))

/-- `iterate_pagerank(corpus, damping_factor)` from `src/pagerank.py`, with
explicit fuel for the unbounded convergence loop. -/
def iterate_pagerank (corpus : Corpus) (damping_factor : ℚ) (fuel : ℕ) :
    Option (List (Page × ℚ)) :=
  (iterLoop corpus damping_factor fuel (initRank corpus)).map normalize

/-- The new rank of page `p` as section 4.3 of the spec words it: sum over
pages `q` linking to `p` of `rank(q)/L(q)`, a dangling `q` contributing
`rank(q)/N` to every page. -/
def specNewRank (corpus : Corpus) (d : ℚ) (f : Page → ℚ) (p : Page) : ℚ :=
  (1 - d) / ((keys corpus).length : ℚ) +
    d * ((keys corpus).map (fun q =>
      if lookupLinks corpus q = [] then f q / ((keys corpus).length : ℚ)
      else if p ∈ lookupLinks corpus q then
        f q / ((lookupLinks corpus q).length : ℚ)
      else 0)).sum

/-- One simultaneous sweep as the spec words it. -/
def specSweep (corpus : Corpus) (d : ℚ) (pr : List (Page × ℚ)) :
    List (Page × ℚ) :=
  (keys corpus).map (fun p => (p, specNewRank corpus d (lookupRank pr) p))

/-- The spec's convergence loop: stop when no page's rank changed by more
than 0.001 between the previous and new sweep. -/
def specLoop (corpus : Corpus) (d : ℚ) :
    ℕ → List (Page × ℚ) → Option (List (Page × ℚ))
  | 0, _ => none
  | fuel + 1, pr =>
      let npr := specSweep corpus d pr
      if convCheck corpus pr npr then some npr else specLoop corpus d fuel npr

/-- The Iterative Estimator as section 4.3 of the spec describes it:
initial rank `1/N` for every page, simultaneous sweeps until no rank moves
by more than 0.001, then division of every rank by the total. -/
def spec_iterate_pagerank (corpus : Corpus) (d : ℚ) (fuel : ℕ) :
    Option (List (Page × ℚ)) :=
  (specLoop corpus d fuel
      ((keys corpus).map (fun p => (p, 1 / ((keys corpus).length : ℚ))))).map
    normalize

/-- The L1 distance between two rank assignments, over the pages of the
corpus. -/
def l1dist (c : Corpus) (f g : Page → ℚ) : ℚ :=
  ((keys c).map (fun p => |f p - g p|)).sum

/-- The corpus `{0: {1}, 1: {2}, 2: {1}}`: with damping factor `1` its sweep
sequence is eventually periodic with period two and never converges. -/
def cycleCorpus : Corpus := [(0, [1]), (1, [2]), (2, [1])]

/-- The first sweep state of `cycleCorpus` at damping factor 1. -/
def cycleS1 : List (Page × ℚ) := [(0, 0), (1, 2/3), (2, 1/3)]

/-- The second sweep state of `cycleCorpus` at damping factor 1. -/
def cycleS2 : List (Page × ℚ) := [(0, 0), (1, 1/3), (2, 2/3)]

/-- The corpus `{0: {2}, 1: {2}, 2: {}, 3: {0, 1}}`, on which (at damping
factor 29/32) the iteration stops at a state whose next sweep still moves a
rank by more than the threshold. -/
def reboundCorpus : Corpus := [(0, [2]), (1, [2]), (2, []), (3, [0, 1])]

end PageRank

namespace PageRank

theorem mem_keys_of_mem {c : Corpus} {e : Page × List Page} (he : e ∈ c) :
    e.1 ∈ keys c := List.mem_map_of_mem Prod.fst he

theorem keys_length (c : Corpus) : (keys c).length = c.length :=
  List.length_map c Prod.fst

theorem lookupRank_cons (e : Page × ℚ) (l : List (Page × ℚ)) (p : Page) :
    lookupRank (e :: l) p = if e.1 = p then e.2 else lookupRank l p := by
  by_cases h : e.1 = p
  · simp [lookupRank, List.find?_cons_of_pos, h]
  · have hb : ¬ ((e.1 == p) = true) := by simp [h]
    simp [lookupRank, List.find?_cons_of_neg _ hb, h]

theorem lookupLinks_cons (e : Page × List Page) (l : List (Page × List Page))
    (p : Page) :
    lookupLinks (e :: l) p = if e.1 = p then e.2 else lookupLinks l p := by
  by_cases h : e.1 = p
  · simp [lookupLinks, List.find?_cons_of_pos, h]
  · have hb : ¬ ((e.1 == p) = true) := by simp [h]
    simp [lookupLinks, List.find?_cons_of_neg _ hb, h]

theorem lookupRank_map_keys (c : Corpus) (g : Page → ℚ) (p : Page) :
    lookupRank (c.map (fun e => (e.1, g e.1))) p =
      if p ∈ keys c then g p else 0 := by
  induction c with
  | nil => simp [lookupRank, keys]
  | cons a t ih =>
      simp only [List.map_cons, lookupRank_cons, ih]
      by_cases h : a.1 = p
      · subst h
        simp [keys]
      · have hk : (p ∈ keys (a :: t)) ↔ (p ∈ keys t) := by
          simp only [keys, List.map_cons, List.mem_cons]
          exact ⟨fun hc => hc.resolve_left (fun hc' => h hc'.symm), Or.inr⟩
        by_cases hp : p ∈ keys t
        · simp [h, hp, hk.mpr hp]
        · rw [if_neg h, if_neg hp, if_neg (fun hc => hp (hk.mp hc))]

theorem lookupLinks_eq_of_mem {c : Corpus} (hk : (keys c).Nodup)
    {e : Page × List Page} (he : e ∈ c) : lookupLinks c e.1 = e.2 := by
  induction c with
  | nil => cases he
  | cons a t ih =>
      rcases List.mem_cons.mp he with rfl | hte
      · simp [lookupLinks_cons]
      · have ha : a.1 ∉ keys t := by
          have := List.nodup_cons.mp hk
          simpa [keys] using this.1
        have hne : a.1 ≠ e.1 := fun hc => ha (hc ▸ mem_keys_of_mem hte)
        have ht : (keys t).Nodup := (List.nodup_cons.mp hk).2
        rw [lookupLinks_cons, if_neg hne]
        exact ih ht hte

theorem lookupRank_nonneg {pr : List (Page × ℚ)}
    (h : ∀ e ∈ pr, 0 ≤ e.2) (p : Page) : 0 ≤ lookupRank pr p := by
  unfold lookupRank
  cases hf : pr.find? (fun e => e.1 == p) with
  | none => simp
  | some e =>
      have := List.mem_of_find?_eq_some hf
      simpa using h e this

theorem sum_map_swap {α β : Type} (l1 : List α) (l2 : List β) (g : α → β → ℚ) :
    (l1.map (fun a => (l2.map (g a)).sum)).sum
      = (l2.map (fun b => (l1.map (fun a => g a b)).sum)).sum := by
  induction l1 with
  | nil => simp
  | cons a t ih =>
      simp only [List.map_cons, List.sum_cons, ih]
      rw [List.sum_map_add]

theorem countP_mem_eq_length {ks s : List Page} (hk : ks.Nodup) (hs : s.Nodup)
    (hsub : ∀ x ∈ s, x ∈ ks) :
    ks.countP (fun p => decide (p ∈ s)) = s.length := by
  rw [List.countP_eq_length_filter]
  have h1 : (ks.filter (fun p => decide (p ∈ s))).Nodup := hk.filter _
  have hfin : (ks.filter (fun p => decide (p ∈ s))).toFinset = s.toFinset := by
    ext x
    simp only [List.mem_toFinset, List.mem_filter, decide_eq_true_iff]
    exact ⟨fun h => h.2, fun h => ⟨hsub x h, h⟩⟩
  have e1 := List.toFinset_card_of_nodup h1
  have e2 := List.toFinset_card_of_nodup hs
  rw [hfin] at e1
  omega

theorem sum_map_ite_mem (l s : List Page) (x : ℚ) :
    (l.map (fun p => if p ∈ s then x else 0)).sum
      = (l.countP (fun p => decide (p ∈ s)) : ℚ) * x := by
  induction l with
  | nil => simp
  | cons a t ih =>
      simp only [List.map_cons, List.sum_cons, ih, List.countP_cons]
      by_cases h : a ∈ s
      · simp only [h, if_true, decide_true_eq_true]
        push_cast
        ring
      · simp [h]

theorem abs_list_sum_le {α : Type} (l : List α) (f : α → ℚ) :
    |(l.map f).sum| ≤ (l.map (fun x => |f x|)).sum := by
  induction l with
  | nil => simp
  | cons a t ih =>
      simp only [List.map_cons, List.sum_cons]
      exact (abs_add _ _).trans (add_le_add_left ih _)

theorem sum_map_const {α : Type} (l : List α) (x : ℚ) :
    (l.map (fun _ => x)).sum = (l.length : ℚ) * x := by
  induction l with
  | nil => simp
  | cons a t ih =>
      simp only [List.map_cons, List.sum_cons, ih, List.length_cons]
      push_cast
      ring

theorem length_cast_ne_zero {c : Corpus} (hne : c ≠ []) :
    ((c.length : ℚ)) ≠ 0 := by
  have : 0 < c.length := List.length_pos.mpr hne
  exact_mod_cast this.ne'

theorem effLinks_length_pos {c : Corpus} (hv : validCorpus c)
    {e : Page × List Page} (_he : e ∈ c) : 0 < (effLinks c e.2).length := by
  obtain ⟨hne, hnd, hmem⟩ := hv
  unfold effLinks
  split
  · rw [keys_length]
    exact List.length_pos.mpr hne
  · next hls => exact List.length_pos.mpr hls

theorem sum_ite_effLinks (c : Corpus) (hv : validCorpus c)
    {e : Page × List Page} (he : e ∈ c) (x : ℚ) :
    ((keys c).map (fun p =>
        if p ∈ effLinks c e.2 then x / ((effLinks c e.2).length : ℚ)
        else 0)).sum = x := by
  rw [sum_map_ite_mem]
  obtain ⟨hne, hnd, hmem⟩ := hv
  have hcount : (keys c).countP (fun p => decide (p ∈ effLinks c e.2))
      = (effLinks c e.2).length := by
    apply countP_mem_eq_length hnd
    · unfold effLinks
      split
      · exact hnd
      · exact (hmem e he).1
    · unfold effLinks
      split
      · exact fun y hy => hy
      · exact fun p hp => (hmem e he).2.1 p hp
  rw [hcount]
  have hpos : 0 < (effLinks c e.2).length := effLinks_length_pos ⟨hne, hnd, hmem⟩ he
  have hL : ((effLinks c e.2).length : ℚ) ≠ 0 := by exact_mod_cast hpos.ne'
  rw [mul_comm]
  exact div_mul_cancel₀ x hL

theorem sum_newRank (c : Corpus) (hv : validCorpus c) (d : ℚ) (f : Page → ℚ) :
    ((keys c).map (fun p => newRank c d f p)).sum
      = (1 - d) + d * (c.map (fun e => f e.1)).sum := by
  unfold newRank
  rw [List.sum_map_add]
  congr 1
  · rw [sum_map_const, keys_length,
      mul_div_cancel₀ _ (length_cast_ne_zero hv.1)]
  · rw [List.sum_map_mul_left]
    congr 1
    rw [sum_map_swap]
    exact congrArg List.sum
      (List.map_congr_left (fun e he => sum_ite_effLinks c hv he (f e.1)))

theorem sweep_values (c : Corpus) (d : ℚ) (pr : List (Page × ℚ))
    {p : Page} (hp : p ∈ keys c) :
    lookupRank (sweep c d pr) p = newRank c d (lookupRank pr) p := by
  unfold sweep
  rw [lookupRank_map_keys, if_pos hp]

theorem sweep_fst (c : Corpus) (d : ℚ) (pr : List (Page × ℚ)) :
    (sweep c d pr).map Prod.fst = keys c := by
  unfold sweep keys
  rw [List.map_map]
  rfl

theorem sweep_rankSum (c : Corpus) (hv : validCorpus c) (d : ℚ)
    (pr : List (Page × ℚ)) :
    ((sweep c d pr).map Prod.snd).sum
      = (1 - d) + d * (c.map (fun e => lookupRank pr e.1)).sum := by
  unfold sweep
  rw [List.map_map]
  have : c.map (Prod.snd ∘ fun e => (e.1, newRank c d (lookupRank pr) e.1))
      = (keys c).map (fun p => newRank c d (lookupRank pr) p) := by
    unfold keys
    rw [List.map_map]
    rfl
  rw [this, sum_newRank c hv]

theorem convCheck_eq_true_iff (c : Corpus) (old npr : List (Page × ℚ)) :
    convCheck c old npr = true ↔
      ∀ p ∈ keys c, |lookupRank npr p - lookupRank old p| ≤ threshold := by
  simp [convCheck, List.all_eq_true]

theorem newRank_nonneg (c : Corpus) {d : ℚ} (hd0 : 0 ≤ d) (hd1 : d ≤ 1)
    {f : Page → ℚ} (hf : ∀ p, 0 ≤ f p) (p : Page) : 0 ≤ newRank c d f p := by
  unfold newRank
  have hN : (0:ℚ) ≤ (c.length : ℚ) := Nat.cast_nonneg _
  apply add_nonneg
  · apply div_nonneg (by linarith) hN
  · apply mul_nonneg hd0
    apply List.sum_nonneg
    intro x hx
    simp only [List.mem_map] at hx
    obtain ⟨e, _, rfl⟩ := hx
    split
    · exact div_nonneg (hf _) (Nat.cast_nonneg _)
    · exact le_refl 0

theorem sum_map_sub {α : Type} (l : List α) (f g : α → ℚ) :
    (l.map (fun x => f x - g x)).sum = (l.map f).sum - (l.map g).sum := by
  induction l with
  | nil => simp
  | cons a t ih =>
      simp only [List.map_cons, List.sum_cons, ih]
      ring

theorem newRank_sub (c : Corpus) (d : ℚ) (f g : Page → ℚ) (p : Page) :
    newRank c d f p - newRank c d g p
      = d * (c.map (fun e =>
          if p ∈ effLinks c e.2 then
            (f e.1 - g e.1) / ((effLinks c e.2).length : ℚ)
          else 0)).sum := by
  unfold newRank
  have hsub : (c.map (fun e =>
      if p ∈ effLinks c e.2 then
        (f e.1 - g e.1) / ((effLinks c e.2).length : ℚ)
      else 0))
      = c.map (fun e =>
        (if p ∈ effLinks c e.2 then
          f e.1 / ((effLinks c e.2).length : ℚ) else 0)
        - (if p ∈ effLinks c e.2 then
            g e.1 / ((effLinks c e.2).length : ℚ) else 0)) := by
    apply List.map_congr_left
    intro e _
    split
    · rw [sub_div]
    · rw [sub_zero]
  rw [hsub, sum_map_sub]
  ring

theorem newRank_contraction (c : Corpus) (hv : validCorpus c) {d : ℚ}
    (hd0 : 0 ≤ d) (f g : Page → ℚ) :
    ((keys c).map (fun p => |newRank c d f p - newRank c d g p|)).sum
      ≤ d * (c.map (fun e => |f e.1 - g e.1|)).sum := by
  have hpt : ∀ p ∈ keys c, |newRank c d f p - newRank c d g p|
      ≤ (c.map (fun e =>
          if p ∈ effLinks c e.2 then
            d * |f e.1 - g e.1| / ((effLinks c e.2).length : ℚ)
          else 0)).sum := by
    intro p _
    rw [newRank_sub, abs_mul, abs_of_nonneg hd0]
    have h1 := abs_list_sum_le c (fun e =>
      if p ∈ effLinks c e.2 then
        (f e.1 - g e.1) / ((effLinks c e.2).length : ℚ)
      else 0)
    have h2 : (c.map (fun e =>
        |if p ∈ effLinks c e.2 then
          (f e.1 - g e.1) / ((effLinks c e.2).length : ℚ) else 0|))
        = c.map (fun e =>
          if p ∈ effLinks c e.2 then
            |f e.1 - g e.1| / ((effLinks c e.2).length : ℚ)
          else 0) := by
      apply List.map_congr_left
      intro e _
      split
      · rw [abs_div, Nat.abs_cast]
      · exact abs_zero
    rw [h2] at h1
    have h3 : d * (c.map (fun e =>
        if p ∈ effLinks c e.2 then
          |f e.1 - g e.1| / ((effLinks c e.2).length : ℚ)
        else 0)).sum
        = (c.map (fun e =>
          if p ∈ effLinks c e.2 then
            d * |f e.1 - g e.1| / ((effLinks c e.2).length : ℚ)
          else 0)).sum := by
      rw [← List.sum_map_mul_left]
      apply congrArg List.sum
      apply List.map_congr_left
      intro e _
      split
      · rw [mul_div_assoc]
      · exact mul_zero d
    rw [← h3]
    exact mul_le_mul_of_nonneg_left h1 hd0
  calc ((keys c).map (fun p => |newRank c d f p - newRank c d g p|)).sum
      ≤ ((keys c).map (fun p => (c.map (fun e =>
          if p ∈ effLinks c e.2 then
            d * |f e.1 - g e.1| / ((effLinks c e.2).length : ℚ)
          else 0)).sum)).sum := List.sum_le_sum hpt
    _ = (c.map (fun e => ((keys c).map (fun p =>
          if p ∈ effLinks c e.2 then
            d * |f e.1 - g e.1| / ((effLinks c e.2).length : ℚ)
          else 0)).sum)).sum := sum_map_swap _ _ _
    _ = (c.map (fun e => d * |f e.1 - g e.1|)).sum :=
        congrArg List.sum
          (List.map_congr_left (fun e he => sum_ite_effLinks c hv he _))
    _ = d * (c.map (fun e => |f e.1 - g e.1|)).sum := List.sum_map_mul_left _ _ _

theorem l1dist_nonneg (c : Corpus) (f g : Page → ℚ) : 0 ≤ l1dist c f g := by
  apply List.sum_nonneg
  intro x hx
  simp only [List.mem_map] at hx
  obtain ⟨q, _, rfl⟩ := hx
  exact abs_nonneg _

theorem mem_le_sum_of_nonneg {l : List ℚ} (h : ∀ x ∈ l, 0 ≤ x) {x : ℚ}
    (hx : x ∈ l) : x ≤ l.sum := by
  induction l with
  | nil => cases hx
  | cons a t ih =>
      have ht : 0 ≤ t.sum :=
        List.sum_nonneg (fun y hy => h y (List.mem_cons_of_mem a hy))
      rcases List.mem_cons.mp hx with rfl | hxt
      · simp only [List.sum_cons]
        linarith
      · have hr := ih (fun y hy => h y (List.mem_cons_of_mem a hy)) hxt
        have ha : 0 ≤ a := h a (List.mem_cons_self a t)
        simp only [List.sum_cons]
        linarith

theorem abs_le_l1dist (c : Corpus) (f g : Page → ℚ) {p : Page}
    (hp : p ∈ keys c) : |f p - g p| ≤ l1dist c f g := by
  apply mem_le_sum_of_nonneg
  · intro x hx
    simp only [List.mem_map] at hx
    obtain ⟨q, _, rfl⟩ := hx
    exact abs_nonneg _
  · exact List.mem_map_of_mem _ hp

theorem entries_abs_sum (c : Corpus) (f g : Page → ℚ) :
    (c.map (fun e => |f e.1 - g e.1|)).sum = l1dist c f g := by
  unfold l1dist keys
  rw [List.map_map]
  rfl

theorem iterLoop_some_of_l1 (c : Corpus) (hv : validCorpus c) {d : ℚ}
    (hd0 : 0 ≤ d) :
    ∀ n pr,
      d ^ n * l1dist c (lookupRank pr) (lookupRank (sweep c d pr)) ≤ threshold →
      (iterLoop c d (n + 1) pr).isSome = true := by
  intro n
  induction n with
  | zero =>
      intro pr h
      rw [pow_zero, one_mul] at h
      have hconv : convCheck c pr (sweep c d pr) = true := by
        rw [convCheck_eq_true_iff]
        intro p hp
        have h1 : |lookupRank (sweep c d pr) p - lookupRank pr p|
            ≤ l1dist c (lookupRank pr) (lookupRank (sweep c d pr)) := by
          rw [abs_sub_comm]
          exact abs_le_l1dist c _ _ hp
        exact h1.trans h
      rw [iterLoop, if_pos hconv]
      rfl
  | succ n ih =>
      intro pr h
      rw [iterLoop]
      by_cases hconv : convCheck c pr (sweep c d pr) = true
      · rw [if_pos hconv]
        rfl
      · rw [if_neg hconv]
        apply ih
        have hc : l1dist c (lookupRank (sweep c d pr))
            (lookupRank (sweep c d (sweep c d pr)))
            ≤ d * l1dist c (lookupRank pr) (lookupRank (sweep c d pr)) := by
          have h1 : ((keys c).map (fun p =>
              |lookupRank (sweep c d pr) p
                - lookupRank (sweep c d (sweep c d pr)) p|))
              = ((keys c).map (fun p =>
                |newRank c d (lookupRank pr) p
                  - newRank c d (lookupRank (sweep c d pr)) p|)) := by
            apply List.map_congr_left
            intro p hp
            rw [sweep_values c d pr hp, sweep_values c d (sweep c d pr) hp]
          have h2 := newRank_contraction c hv hd0 (lookupRank pr)
            (lookupRank (sweep c d pr))
          rw [entries_abs_sum] at h2
          unfold l1dist
          rw [h1]
          exact h2
        calc d ^ n * l1dist c (lookupRank (sweep c d pr))
              (lookupRank (sweep c d (sweep c d pr)))
            ≤ d ^ n * (d * l1dist c (lookupRank pr)
                (lookupRank (sweep c d pr))) :=
              mul_le_mul_of_nonneg_left hc (pow_nonneg hd0 n)
          _ = d ^ (n + 1) * l1dist c (lookupRank pr)
                (lookupRank (sweep c d pr)) := by ring
          _ ≤ threshold := h

theorem iterLoop_terminates (c : Corpus) (hv : validCorpus c) {d : ℚ}
    (hd0 : 0 ≤ d) (hd1 : d < 1) (pr : List (Page × ℚ)) :
    ∃ fuel res, iterLoop c d fuel pr = some res := by
  have hLnn := l1dist_nonneg c (lookupRank pr) (lookupRank (sweep c d pr))
  rcases eq_or_lt_of_le hLnn with heq | hpos
  · have h0 : d ^ 0 * l1dist c (lookupRank pr) (lookupRank (sweep c d pr))
        ≤ threshold := by
      rw [pow_zero, one_mul, ← heq]
      norm_num [threshold]
    have h := iterLoop_some_of_l1 c hv hd0 0 pr h0
    rcases Option.isSome_iff_exists.mp h with ⟨res, hres⟩
    exact ⟨1, res, hres⟩
  · have hthr : (0:ℚ) < threshold / l1dist c (lookupRank pr)
        (lookupRank (sweep c d pr)) := by
      apply div_pos _ hpos
      norm_num [threshold]
    obtain ⟨n, hn⟩ := exists_pow_lt_of_lt_one hthr hd1
    have hb : d ^ n * l1dist c (lookupRank pr) (lookupRank (sweep c d pr))
        ≤ threshold := by
      have := (lt_div_iff₀ hpos).mp hn
      linarith
    have h := iterLoop_some_of_l1 c hv hd0 n pr hb
    rcases Option.isSome_iff_exists.mp h with ⟨res, hres⟩
    exact ⟨n + 1, res, hres⟩

theorem iterLoop_inv (c : Corpus) (hv : validCorpus c) {d : ℚ}
    (hd0 : 0 ≤ d) (hd1 : d ≤ 1) :
    ∀ fuel pr res, iterLoop c d fuel pr = some res →
      (∀ e ∈ pr, 0 ≤ e.2) → ((c.map (fun e => lookupRank pr e.1)).sum = 1) →
      (∀ e ∈ res, 0 ≤ e.2) ∧ ((res.map Prod.snd).sum = 1) ∧
        res.map Prod.fst = keys c := by
  intro fuel
  induction fuel with
  | zero => intro pr res h; cases h
  | succ n ih =>
      intro pr res h hpos hsum
      have hposn : ∀ e ∈ sweep c d pr, 0 ≤ e.2 := by
        intro e he
        unfold sweep at he
        simp only [List.mem_map] at he
        obtain ⟨a, _, rfl⟩ := he
        exact newRank_nonneg c hd0 hd1 (lookupRank_nonneg hpos) a.1
      have hmapn : c.map (fun e => lookupRank (sweep c d pr) e.1)
          = c.map (fun e => newRank c d (lookupRank pr) e.1) :=
        List.map_congr_left
          (fun e he => sweep_values c d pr (mem_keys_of_mem he))
      have hkeysmap : c.map (fun e => newRank c d (lookupRank pr) e.1)
          = (keys c).map (fun p => newRank c d (lookupRank pr) p) := by
        unfold keys
        rw [List.map_map]
        rfl
      have hsumn : (c.map (fun e => lookupRank (sweep c d pr) e.1)).sum = 1 := by
        rw [hmapn, hkeysmap, sum_newRank c hv, hsum]
        ring
      rw [iterLoop] at h
      split at h
      · cases h
        refine ⟨hposn, ?_, sweep_fst c d pr⟩
        rw [sweep_rankSum c hv, hsum]
        ring
      · exact ih (sweep c d pr) res h hposn hsumn

theorem initRank_nonneg (c : Corpus) : ∀ e ∈ initRank c, 0 ≤ e.2 := by
  intro e he
  unfold initRank at he
  simp only [List.mem_map] at he
  obtain ⟨a, _, rfl⟩ := he
  exact div_nonneg zero_le_one (Nat.cast_nonneg _)

theorem initRank_sum (c : Corpus) (hv : validCorpus c) :
    (c.map (fun e => lookupRank (initRank c) e.1)).sum = 1 := by
  have h1 : ∀ e ∈ c, lookupRank (initRank c) e.1 = 1 / (c.length : ℚ) := by
    intro e he
    unfold initRank
    have h2 := lookupRank_map_keys c (fun _ => 1 / (c.length : ℚ)) e.1
    rw [if_pos (mem_keys_of_mem he)] at h2
    exact h2
  rw [List.map_congr_left h1, sum_map_const,
    mul_one_div, div_self (length_cast_ne_zero hv.1)]

theorem normalize_of_sum_one {pr : List (Page × ℚ)}
    (h : (pr.map Prod.snd).sum = 1) : normalize pr = pr := by
  unfold normalize
  rw [h]
  simp

theorem specNewRank_eq (c : Corpus) (hk : (keys c).Nodup) (d : ℚ)
    (f : Page → ℚ) {p : Page} (hp : p ∈ keys c) :
    specNewRank c d f p = newRank c d f p := by
  unfold specNewRank newRank
  rw [keys_length]
  congr 1
  congr 1
  have h1 : (keys c).map (fun q =>
      if lookupLinks c q = [] then f q / ((c.length : ℕ) : ℚ)
      else if p ∈ lookupLinks c q then
        f q / ((lookupLinks c q).length : ℚ)
      else 0)
      = c.map (fun e =>
        if lookupLinks c e.1 = [] then f e.1 / ((c.length : ℕ) : ℚ)
        else if p ∈ lookupLinks c e.1 then
          f e.1 / ((lookupLinks c e.1).length : ℚ)
        else 0) := by
    unfold keys
    rw [List.map_map]
    rfl
  rw [h1]
  apply congrArg List.sum
  apply List.map_congr_left
  intro e he
  rw [lookupLinks_eq_of_mem hk he]
  by_cases hnil : e.2 = []
  · rw [if_pos hnil]
    have heff : effLinks c e.2 = keys c := by
      unfold effLinks
      rw [if_pos hnil]
    rw [heff, if_pos hp, keys_length]
  · rw [if_neg hnil]
    have heff : effLinks c e.2 = e.2 := by
      unfold effLinks
      rw [if_neg hnil]
    rw [heff]

theorem specSweep_eq (c : Corpus) (hk : (keys c).Nodup) (d : ℚ)
    (pr : List (Page × ℚ)) : specSweep c d pr = sweep c d pr := by
  unfold specSweep sweep
  have h1 : (keys c).map (fun p => (p, specNewRank c d (lookupRank pr) p))
      = c.map (fun e => (e.1, specNewRank c d (lookupRank pr) e.1)) := by
    unfold keys
    rw [List.map_map]
    rfl
  rw [h1]
  apply List.map_congr_left
  intro e he
  exact congrArg (Prod.mk e.1)
    (specNewRank_eq c hk d _ (mem_keys_of_mem he))

theorem specLoop_eq (c : Corpus) (hk : (keys c).Nodup) (d : ℚ) :
    ∀ fuel pr, specLoop c d fuel pr = iterLoop c d fuel pr := by
  intro fuel
  induction fuel with
  | zero => intro pr; rfl
  | succ n ih =>
      intro pr
      rw [specLoop, iterLoop, specSweep_eq c hk d pr]
      split
      · rfl
      · exact ih _

theorem spec_iterate_eq (c : Corpus) (hk : (keys c).Nodup) (d : ℚ)
    (fuel : ℕ) : spec_iterate_pagerank c d fuel = iterate_pagerank c d fuel := by
  unfold spec_iterate_pagerank iterate_pagerank
  rw [specLoop_eq c hk]
  have h1 : (keys c).map (fun p => (p, 1 / ((keys c).length : ℚ)))
      = initRank c := by
    unfold initRank keys
    rw [List.map_map, List.length_map]
    rfl
  rw [h1]

theorem lookupRank_map_pages (l : List Page) (g : Page → ℚ) (p : Page) :
    lookupRank (l.map (fun q => (q, g q))) p = if p ∈ l then g p else 0 := by
  induction l with
  | nil => simp [lookupRank]
  | cons a t ih =>
      simp only [List.map_cons, lookupRank_cons, ih]
      by_cases h : a = p
      · subst h
        simp
      · have hk : (p ∈ a :: t) ↔ (p ∈ t) := by
          rw [List.mem_cons]
          exact ⟨fun hc => hc.resolve_left (fun hc' => h hc'.symm), Or.inr⟩
        by_cases hp : p ∈ t
        · simp [h, hp, hk.mpr hp]
        · rw [if_neg h, if_neg hp, if_neg (fun hc => hp (hk.mp hc))]

theorem transition_model_fst (c : Corpus) (p : Page) (d : ℚ) :
    (transition_model c p d).map Prod.fst = keys c := by
  simp only [transition_model]
  split
  · rw [List.map_map]
    exact List.map_id _
  · rw [List.map_map]
    exact List.map_id _

theorem transition_model_lookup_linked (c : Corpus) (page : Page) (d : ℚ)
    (hl : lookupLinks c page ≠ []) {p : Page} (hp : p ∈ keys c) :
    lookupRank (transition_model c page d) p
      = (1 - d) / ((keys c).length : ℚ)
        + (if p ∈ lookupLinks c page then
            d / ((lookupLinks c page).length : ℚ) else 0) := by
  simp only [transition_model, if_pos hl]
  rw [lookupRank_map_pages, if_pos hp]

theorem transition_model_lookup_dangling (c : Corpus) (page : Page) (d : ℚ)
    (hl : lookupLinks c page = []) {p : Page} (hp : p ∈ keys c) :
    lookupRank (transition_model c page d) p
      = 1 / ((keys c).length : ℚ) := by
  simp only [transition_model, hl, ne_eq, not_true_eq_false, if_false]
  rw [lookupRank_map_pages, if_pos hp]

theorem keys_cast_ne_zero {c : Corpus} (hne : c ≠ []) :
    (((keys c).length : ℕ) : ℚ) ≠ 0 := by
  rw [keys_length]
  exact length_cast_ne_zero hne

theorem transition_model_snd_sum (c : Corpus) (hv : validCorpus c)
    {page : Page} (hpage : page ∈ keys c) (d : ℚ) :
    ((transition_model c page d).map Prod.snd).sum = 1 := by
  obtain ⟨e, he, hfst⟩ := List.mem_map.mp hpage
  subst hfst
  have hlinks : lookupLinks c e.1 = e.2 := lookupLinks_eq_of_mem hv.2.1 he
  by_cases hnil : e.2 = []
  · simp only [transition_model, hlinks, hnil, ne_eq, not_true_eq_false,
      if_false]
    rw [List.map_map]
    have h1 : (keys c).map (Prod.snd ∘ fun p =>
        (p, 1 / ((keys c).length : ℚ)))
        = (keys c).map (fun _ => 1 / ((keys c).length : ℚ)) := rfl
    rw [h1, sum_map_const, mul_one_div, div_self (keys_cast_ne_zero hv.1)]
  · simp only [transition_model, hlinks, if_pos hnil]
    rw [List.map_map]
    have h1 : (keys c).map (Prod.snd ∘ fun p =>
        (p, (1 - d) / ((keys c).length : ℚ)
          + if p ∈ e.2 then d / ((e.2.length : ℕ) : ℚ) else 0))
        = (keys c).map (fun p => (1 - d) / ((keys c).length : ℚ)
          + if p ∈ e.2 then d / ((e.2.length : ℕ) : ℚ) else 0) := rfl
    rw [h1, List.sum_map_add, sum_map_const,
      mul_div_cancel₀ _ (keys_cast_ne_zero hv.1), sum_map_ite_mem,
      countP_mem_eq_length hv.2.1 (hv.2.2 e he).1 (hv.2.2 e he).2.1]
    have hL : ((e.2.length : ℕ) : ℚ) ≠ 0 := by
      have : 0 < e.2.length := List.length_pos.mpr hnil
      exact_mod_cast this.ne'
    rw [mul_comm, div_mul_cancel₀ d hL]
    ring

theorem transition_model_snd_nonneg (c : Corpus) (page : Page) {d : ℚ}
    (hd0 : 0 ≤ d) (hd1 : d ≤ 1) :
    ∀ x ∈ transition_model c page d, 0 ≤ x.2 := by
  intro x hx
  simp only [transition_model] at hx
  split at hx
  · simp only [List.mem_map] at hx
    obtain ⟨q, _, rfl⟩ := hx
    apply add_nonneg
    · exact div_nonneg (by linarith) (Nat.cast_nonneg _)
    · split
      · exact div_nonneg hd0 (Nat.cast_nonneg _)
      · exact le_refl 0
  · simp only [List.mem_map] at hx
    obtain ⟨q, _, rfl⟩ := hx
    exact div_nonneg zero_le_one (Nat.cast_nonneg _)

theorem bump_map_not_mem (t : Corpus) (counts : Page → ℕ) {cur : Page}
    (h : cur ∉ keys t) :
    t.map (fun e => bumpCount counts cur e.1) = t.map (fun e => counts e.1) := by
  apply List.map_congr_left
  intro e he
  unfold bumpCount
  rw [if_neg (fun hc => h (by rw [← hc]; exact mem_keys_of_mem he))]

theorem bumpCount_sum (c : Corpus) (hk : (keys c).Nodup) (counts : Page → ℕ)
    {cur : Page} (hcur : cur ∈ keys c) :
    (c.map (fun e => bumpCount counts cur e.1)).sum
      = (c.map (fun e => counts e.1)).sum + 1 := by
  induction c with
  | nil => simp [keys] at hcur
  | cons a t ih =>
      have hkc : a.1 ∉ keys t ∧ (keys t).Nodup := by
        have h := hk
        simp only [keys, List.map_cons] at h
        exact List.nodup_cons.mp h
      by_cases hac : a.1 = cur
      · subst hac
        simp only [List.map_cons, List.sum_cons]
        rw [bump_map_not_mem t counts hkc.1]
        have hb : bumpCount counts a.1 a.1 = counts a.1 + 1 := by
          unfold bumpCount
          rw [if_pos rfl]
        rw [hb]
        omega
      · have hcurt : cur ∈ keys t := by
          have h := hcur
          simp only [keys, List.map_cons, List.mem_cons] at h
          exact h.resolve_left (fun hc => hac hc.symm)
        simp only [List.map_cons, List.sum_cons, ih hkc.2 hcurt]
        have hb : bumpCount counts cur a.1 = counts a.1 := by
          unfold bumpCount
          rw [if_neg hac]
        rw [hb]
        omega

theorem sampleWalk_sum (c : Corpus) (hv : validCorpus c) (d : ℚ)
    (pick : ℕ → List (Page × ℚ) → Page)
    (hpick : ∀ i m, m ≠ [] → pick i m ∈ m.map Prod.fst) :
    ∀ n cur counts, cur ∈ keys c →
      (c.map (fun e => sampleWalk c d pick n cur counts e.1)).sum
        = (c.map (fun e => counts e.1)).sum + n := by
  intro n
  induction n with
  | zero =>
      intro cur counts _
      simp [sampleWalk]
  | succ n ih =>
      intro cur counts hcur
      have hne : transition_model c cur d ≠ [] := by
        intro hnil
        have hfst := transition_model_fst c cur d
        rw [hnil] at hfst
        have hkne : keys c ≠ [] := by
          intro hkeq
          apply hv.1
          cases c with
          | nil => rfl
          | cons a t => simp [keys] at hkeq
        exact hkne hfst.symm
      have hnext : pick n (transition_model c cur d) ∈ keys c := by
        have h := hpick n _ hne
        rw [transition_model_fst] at h
        exact h
      have hstep : ∀ e : Page × List Page,
          sampleWalk c d pick (n + 1) cur counts e.1
            = sampleWalk c d pick n (pick n (transition_model c cur d))
                (bumpCount counts cur) e.1 := by
        intro e
        rw [sampleWalk]
      rw [List.map_congr_left (fun e _ => hstep e),
        ih (pick n (transition_model c cur d)) (bumpCount counts cur) hnext,
        bumpCount_sum c hv.2.1 counts hcur]
      omega

theorem sample_fst (c : Corpus) (d : ℚ) (n : ℤ) (start : Page)
    (pick : ℕ → List (Page × ℚ) → Page) :
    (sample_pagerank c d n start pick).map Prod.fst = keys c := by
  simp only [sample_pagerank]
  rw [List.map_map]
  rfl

theorem sum_map_cast {α : Type} (l : List α) (g : α → ℕ) :
    (l.map (fun x => ((g x : ℕ) : ℚ))).sum = (((l.map g).sum : ℕ) : ℚ) := by
  induction l with
  | nil => simp
  | cons a t ih => simp [ih]

theorem sample_snd_sum (c : Corpus) (hv : validCorpus c) (d : ℚ) {n : ℤ}
    (hn : 1 ≤ n) {start : Page} (hstart : start ∈ keys c)
    (pick : ℕ → List (Page × ℚ) → Page)
    (hpick : ∀ i m, m ≠ [] → pick i m ∈ m.map Prod.fst) :
    ((sample_pagerank c d n start pick).map Prod.snd).sum = 1 := by
  simp only [sample_pagerank]
  rw [List.map_map]
  have h1 : c.map (Prod.snd ∘ fun e =>
      (e.1, ((sampleWalk c d pick n.toNat start (fun _ => 0) e.1 : ℕ) : ℚ)
        / (n : ℚ)))
      = c.map (fun e =>
        ((sampleWalk c d pick n.toNat start (fun _ => 0) e.1 : ℕ) : ℚ)
          * ((n : ℚ))⁻¹) := by
    apply List.map_congr_left
    intro e _
    exact div_eq_mul_inv _ _
  rw [h1, List.sum_map_mul_right, sum_map_cast,
    sampleWalk_sum c hv d pick hpick n.toNat start (fun _ => 0) hstart]
  have h0 : (c.map (fun _ => (0:ℕ))).sum = 0 := by simp
  rw [h0]
  have hcast : ((n.toNat : ℕ) : ℚ) = (n : ℚ) := by
    have h2 := Int.toNat_of_nonneg (le_trans zero_le_one hn)
    exact_mod_cast congrArg (fun z : ℤ => (z : ℚ)) h2
  rw [Nat.zero_add, hcast]
  have hnz : (n : ℚ) ≠ 0 := by
    have h3 : (1:ℚ) ≤ (n : ℚ) := by exact_mod_cast hn
    linarith
  exact mul_inv_cancel₀ hnz

theorem sample_snd_nonneg (c : Corpus) (d : ℚ) {n : ℤ} (hn : 1 ≤ n)
    (start : Page) (pick : ℕ → List (Page × ℚ) → Page) :
    ∀ e ∈ sample_pagerank c d n start pick, 0 ≤ e.2 := by
  intro e he
  simp only [sample_pagerank, List.mem_map] at he
  obtain ⟨a, _, rfl⟩ := he
  have hnn : (0:ℚ) ≤ (n : ℚ) := by
    have : (1:ℚ) ≤ (n : ℚ) := by exact_mod_cast hn
    linarith
  exact div_nonneg (Nat.cast_nonneg _) hnn

theorem sweep_single (d : ℚ) : sweep [(0, [])] d [(0, 1)] = [(0, 1)] := by
  have h : newRank [(0, [])] d (lookupRank [(0, 1)]) (0 : Page) = 1 := by
    simp [newRank, effLinks, keys, lookupRank, List.find?]
  simp [sweep, h]

theorem iterate_single (d : ℚ) (fuel : ℕ) (hfuel : 1 ≤ fuel) :
    iterate_pagerank [(0, [])] d fuel = some [(0, 1)] := by
  obtain ⟨m, rfl⟩ : ∃ m, fuel = m + 1 := ⟨fuel - 1, by omega⟩
  unfold iterate_pagerank
  have hinit : initRank [(0, [])] = [(0, 1)] := by with_unfolding_all decide
  rw [hinit, iterLoop, sweep_single d]
  have hcv : convCheck [(0, [])] [(0, 1)] [(0, 1)] = true := by
    with_unfolding_all decide
  rw [if_pos hcv]
  have hnorm : normalize [(0, 1)] = [(0, 1)] := by with_unfolding_all decide
  simp [hnorm]

theorem sample_single (d : ℚ) {n : ℤ} (hn : 1 ≤ n)
    (pick : ℕ → List (Page × ℚ) → Page)
    (hpick : ∀ i m, m ≠ [] → pick i m ∈ m.map Prod.fst) :
    sample_pagerank [(0, [])] d n 0 pick = [(0, 1)] := by
  have hvalid : validCorpus [(0, [])] := by with_unfolding_all decide
  have hmem : (0 : Page) ∈ keys [(0, [])] := by with_unfolding_all decide
  have hsum := sampleWalk_sum [(0, [])] hvalid d pick hpick n.toNat 0
    (fun _ => 0) hmem
  simp only [List.map_cons, List.map_nil, List.sum_cons, List.sum_nil] at hsum
  have hw : sampleWalk [(0, [])] d pick n.toNat 0 (fun _ => 0) 0 = n.toNat := by
    omega
  simp only [sample_pagerank, List.map_cons, List.map_nil]
  rw [hw]
  have hcast : ((n.toNat : ℕ) : ℚ) = (n : ℚ) := by
    have h2 := Int.toNat_of_nonneg (le_trans zero_le_one hn)
    exact_mod_cast congrArg (fun z : ℤ => (z : ℚ)) h2
  have hnz : (n : ℚ) ≠ 0 := by
    have h3 : (1:ℚ) ≤ (n : ℚ) := by exact_mod_cast hn
    linarith
  rw [hcast, div_self hnz]

theorem cycle_loop_none :
    ∀ fuel, iterLoop cycleCorpus 1 fuel cycleS1 = none
      ∧ iterLoop cycleCorpus 1 fuel cycleS2 = none := by
  intro fuel
  induction fuel with
  | zero => exact ⟨rfl, rfl⟩
  | succ n ih =>
      have h1 : sweep cycleCorpus 1 cycleS1 = cycleS2 := by
        with_unfolding_all decide
      have h2 : sweep cycleCorpus 1 cycleS2 = cycleS1 := by
        with_unfolding_all decide
      have hc1 : convCheck cycleCorpus cycleS1 cycleS2 = false := by
        with_unfolding_all decide
      have hc2 : convCheck cycleCorpus cycleS2 cycleS1 = false := by
        with_unfolding_all decide
      constructor
      · rw [iterLoop, h1, hc1]
        simp only [Bool.false_eq_true, if_false]
        exact ih.2
      · rw [iterLoop, h2, hc2]
        simp only [Bool.false_eq_true, if_false]
        exact ih.1

/-- C1: for every non-empty corpus satisfying the graph invariant and damping
factor in [0,1], `iterate_pagerank` follows the spec's algorithm — it
initializes every rank to 1/N, sweeps with the rule
(1-d)/N + d·Σ rank(q)/L(q) (a dangling q contributing rank(q)/N), computes
each sweep from the same previous snapshot, stops when no rank moved by more
than 0.001, and after convergence divides by the total so the returned ranks
sum to exactly 1. -/
theorem c1_iterate_pagerank_follows_spec (c : Corpus) (d : ℚ) (fuel : ℕ)
    (hv : validCorpus c) (hd0 : 0 ≤ d) (hd1 : d ≤ 1) :
    spec_iterate_pagerank c d fuel = iterate_pagerank c d fuel
    ∧ ∀ res, iterate_pagerank c d fuel = some res →
        (res.map Prod.snd).sum = 1 := by
  constructor
  · exact spec_iterate_eq c hv.2.1 d fuel
  · intro res hres
    unfold iterate_pagerank at hres
    rcases Option.map_eq_some'.mp hres with ⟨res0, hres0, hnorm⟩
    have hinv := iterLoop_inv c hv hd0 hd1 fuel (initRank c) res0 hres0
      (initRank_nonneg c) (initRank_sum c hv)
    rw [← hnorm, normalize_of_sum_one hinv.2.1]
    exact hinv.2.1

theorem c1_witness :
    validCorpus [(0, [1]), (1, [0])] ∧ (0:ℚ) ≤ 17/20 ∧ (17:ℚ)/20 ≤ 1
    ∧ (spec_iterate_pagerank [(0, [1]), (1, [0])] (17/20) 1
        = iterate_pagerank [(0, [1]), (1, [0])] (17/20) 1
      ∧ ∀ res, iterate_pagerank [(0, [1]), (1, [0])] (17/20) 1 = some res →
          (res.map Prod.snd).sum = 1) :=
  ⟨by with_unfolding_all decide, by norm_num, by norm_num,
    c1_iterate_pagerank_follows_spec [(0, [1]), (1, [0])] (17/20) 1
      (by with_unfolding_all decide) (by norm_num) (by norm_num)⟩

/-- C2: for every non-empty corpus, source page that is a key, and damping
factor in [0,1]: if the source has at least one outbound link, every page
gets (1-d)/N plus, additively, d/L if it is a direct outbound link of the
source; if the source has no outbound links, every page gets 1/N. -/
theorem c2_transition_model_formula (c : Corpus) (page : Page) (d : ℚ)
    (_hv : validCorpus c) (_hpage : page ∈ keys c)
    (_hd0 : 0 ≤ d) (_hd1 : d ≤ 1) :
    (lookupLinks c page ≠ [] →
      ∀ p ∈ keys c, lookupRank (transition_model c page d) p
        = (1 - d) / (c.length : ℚ)
          + (if p ∈ lookupLinks c page then
              d / ((lookupLinks c page).length : ℚ) else 0))
    ∧ (lookupLinks c page = [] →
      ∀ p ∈ keys c, lookupRank (transition_model c page d) p
        = 1 / (c.length : ℚ)) := by
  constructor
  · intro hl p hp
    rw [transition_model_lookup_linked c page d hl hp, keys_length]
  · intro hl p hp
    rw [transition_model_lookup_dangling c page d hl hp, keys_length]

theorem c2_witness :
    validCorpus [(0, [1]), (1, [0])] ∧ (0 : Page) ∈ keys [(0, [1]), (1, [0])]
    ∧ (0:ℚ) ≤ 17/20 ∧ (17:ℚ)/20 ≤ 1
    ∧ ((lookupLinks [(0, [1]), (1, [0])] 0 ≠ [] →
        ∀ p ∈ keys [(0, [1]), (1, [0])],
          lookupRank (transition_model [(0, [1]), (1, [0])] 0 (17/20)) p
            = (1 - 17/20) / ((([(0, [1]), (1, [0])] : Corpus).length : ℕ) : ℚ)
              + (if p ∈ lookupLinks [(0, [1]), (1, [0])] 0 then
                  (17/20) / (((lookupLinks [(0, [1]), (1, [0])] 0).length : ℕ) : ℚ)
                else 0))
      ∧ (lookupLinks [(0, [1]), (1, [0])] 0 = [] →
        ∀ p ∈ keys [(0, [1]), (1, [0])],
          lookupRank (transition_model [(0, [1]), (1, [0])] 0 (17/20)) p
            = 1 / ((([(0, [1]), (1, [0])] : Corpus).length : ℕ) : ℚ))) :=
  ⟨by with_unfolding_all decide, by with_unfolding_all decide,
    by norm_num, by norm_num,
    c2_transition_model_formula [(0, [1]), (1, [0])] 0 (17/20)
      (by with_unfolding_all decide) (by with_unfolding_all decide)
      (by norm_num) (by norm_num)⟩

/-- C3: for every valid corpus, key source page and damping factor in [0,1],
the transition distribution sums to exactly 1 and every probability is
non-negative. -/
theorem c3_transition_distribution (c : Corpus) (page : Page) (d : ℚ)
    (hv : validCorpus c) (hpage : page ∈ keys c) (hd0 : 0 ≤ d) (hd1 : d ≤ 1) :
    ((transition_model c page d).map Prod.snd).sum = 1
    ∧ ∀ x ∈ transition_model c page d, 0 ≤ x.2 :=
  ⟨transition_model_snd_sum c hv hpage d,
   transition_model_snd_nonneg c page hd0 hd1⟩

theorem c3_witness :
    validCorpus [(0, [1]), (1, [0])] ∧ (0 : Page) ∈ keys [(0, [1]), (1, [0])]
    ∧ (0:ℚ) ≤ 17/20 ∧ (17:ℚ)/20 ≤ 1
    ∧ (((transition_model [(0, [1]), (1, [0])] 0 (17/20)).map Prod.snd).sum = 1
      ∧ ∀ x ∈ transition_model [(0, [1]), (1, [0])] 0 (17/20), 0 ≤ x.2) :=
  ⟨by with_unfolding_all decide, by with_unfolding_all decide,
    by norm_num, by norm_num,
    c3_transition_distribution [(0, [1]), (1, [0])] 0 (17/20)
      (by with_unfolding_all decide) (by with_unfolding_all decide)
      (by norm_num) (by norm_num)⟩

/-- C4: for every valid corpus, damping factor in [0,1] and sample count ≥ 1,
the rank mappings of both estimators have key set exactly the pages of the
corpus, all values non-negative, and values summing to exactly 1 (for the
sampler because the n samples increment exactly one counter each; for the
iterator whenever it returns). -/
theorem c4_rank_mappings (c : Corpus) (d : ℚ) (n : ℤ) (start : Page)
    (pick : ℕ → List (Page × ℚ) → Page) (fuel : ℕ)
    (hv : validCorpus c) (hd0 : 0 ≤ d) (hd1 : d ≤ 1) (hn : 1 ≤ n)
    (hstart : start ∈ keys c)
    (hpick : ∀ i m, m ≠ [] → pick i m ∈ m.map Prod.fst) :
    ((sample_pagerank c d n start pick).map Prod.fst = keys c
      ∧ (∀ e ∈ sample_pagerank c d n start pick, 0 ≤ e.2)
      ∧ ((sample_pagerank c d n start pick).map Prod.snd).sum = 1)
    ∧ (∀ res, iterate_pagerank c d fuel = some res →
        res.map Prod.fst = keys c ∧ (∀ e ∈ res, 0 ≤ e.2)
          ∧ (res.map Prod.snd).sum = 1) := by
  refine ⟨⟨sample_fst c d n start pick, sample_snd_nonneg c d hn start pick,
    sample_snd_sum c hv d hn hstart pick hpick⟩, ?_⟩
  intro res hres
  unfold iterate_pagerank at hres
  rcases Option.map_eq_some'.mp hres with ⟨res0, hres0, hnorm⟩
  have hinv := iterLoop_inv c hv hd0 hd1 fuel (initRank c) res0 hres0
    (initRank_nonneg c) (initRank_sum c hv)
  rw [← hnorm, normalize_of_sum_one hinv.2.1]
  exact ⟨hinv.2.2, hinv.1, hinv.2.1⟩

theorem c4_witness :
    validCorpus [(0, [1]), (1, [0])] ∧ (0:ℚ) ≤ 17/20 ∧ (17:ℚ)/20 ≤ 1
    ∧ (1 ≤ (3:ℤ)) ∧ (0 : Page) ∈ keys [(0, [1]), (1, [0])]
    ∧ (∀ i m, m ≠ [] →
        (fun (_ : ℕ) (m : List (Page × ℚ)) => (m.headD (0, 0)).1) i m
          ∈ m.map Prod.fst)
    ∧ (((sample_pagerank [(0, [1]), (1, [0])] (17/20) 3 0
          (fun _ m => (m.headD (0, 0)).1)).map Prod.fst
            = keys [(0, [1]), (1, [0])]
        ∧ (∀ e ∈ sample_pagerank [(0, [1]), (1, [0])] (17/20) 3 0
            (fun _ m => (m.headD (0, 0)).1), 0 ≤ e.2)
        ∧ ((sample_pagerank [(0, [1]), (1, [0])] (17/20) 3 0
            (fun _ m => (m.headD (0, 0)).1)).map Prod.snd).sum = 1)
      ∧ (∀ res, iterate_pagerank [(0, [1]), (1, [0])] (17/20) 1 = some res →
          res.map Prod.fst = keys [(0, [1]), (1, [0])]
            ∧ (∀ e ∈ res, 0 ≤ e.2) ∧ (res.map Prod.snd).sum = 1)) := by
  have hpick : ∀ i m, m ≠ [] →
      (fun (_ : ℕ) (m : List (Page × ℚ)) => (m.headD (0, 0)).1) i m
        ∈ m.map Prod.fst := by
    intro i m hm
    cases m with
    | nil => exact absurd rfl hm
    | cons a t => simp
  exact ⟨by with_unfolding_all decide, by norm_num, by norm_num,
    by norm_num, by with_unfolding_all decide, hpick,
    c4_rank_mappings [(0, [1]), (1, [0])] (17/20) 3 0
      (fun _ m => (m.headD (0, 0)).1) 1
      (by with_unfolding_all decide) (by norm_num) (by norm_num)
      (by norm_num) (by with_unfolding_all decide) hpick⟩

/-- C5 counterexample: the claim fails at damping factor 1, which the claim's
range [0,1] includes: on the valid corpus `cycleCorpus` the sweep sequence is
periodic with period two and the convergence loop never stops, so no amount
of fuel makes `iterate_pagerank` return. -/
theorem c5_counterexample :
    validCorpus cycleCorpus
    ∧ ¬ ∃ fuel res, iterate_pagerank cycleCorpus 1 fuel = some res := by
  constructor
  · with_unfolding_all decide
  · rintro ⟨fuel, res, hres⟩
    unfold iterate_pagerank at hres
    rcases Option.map_eq_some'.mp hres with ⟨res0, hres0, -⟩
    cases fuel with
    | zero => simp [iterLoop] at hres0
    | succ m =>
        have h0 : sweep cycleCorpus 1 (initRank cycleCorpus) = cycleS1 := by
          with_unfolding_all decide
        have hc0 : convCheck cycleCorpus (initRank cycleCorpus) cycleS1
            = false := by
          with_unfolding_all decide
        rw [iterLoop, h0, hc0] at hres0
        simp only [Bool.false_eq_true, if_false] at hres0
        rw [(cycle_loop_none m).1] at hres0
        cases hres0

/-- C5 (amended): for every valid non-empty corpus and damping factor in
[0,1) — strictly below 1 — the convergence loop of `iterate_pagerank`
terminates: some sweep is reached after which no rank moved by more than the
0.001 threshold, so the function returns. (At damping factor exactly 1 the
loop can cycle forever, as `c5_counterexample` shows.) -/
theorem c5_amended_terminates (c : Corpus) (d : ℚ) (hv : validCorpus c)
    (hd0 : 0 ≤ d) (hd1 : d < 1) :
    ∃ fuel res, iterate_pagerank c d fuel = some res := by
  obtain ⟨fuel, res, h⟩ := iterLoop_terminates c hv hd0 hd1 (initRank c)
  refine ⟨fuel, normalize res, ?_⟩
  unfold iterate_pagerank
  rw [h]
  rfl

theorem c5_witness :
    validCorpus [(0, [1]), (1, [0])] ∧ (0:ℚ) ≤ 1/2 ∧ (1:ℚ)/2 < 1
    ∧ ∃ fuel res, iterate_pagerank [(0, [1]), (1, [0])] (1/2) fuel
        = some res :=
  ⟨by with_unfolding_all decide, by norm_num, by norm_num,
    c5_amended_terminates [(0, [1]), (1, [0])] (1/2)
      (by with_unfolding_all decide) (by norm_num) (by norm_num)⟩

/-- C6 counterexample: on the valid corpus `reboundCorpus` with damping
factor 29/32, `iterate_pagerank` returns a rank mapping, yet restarting the
sweep-until-converged loop from that very mapping fails the per-page 0.001
convergence check on its first sweep: one sweep of fuel is not enough. -/
theorem c6_counterexample :
    validCorpus reboundCorpus
    ∧ (iterate_pagerank reboundCorpus (29/32) 10).isSome = true
    ∧ (iterate_pagerank reboundCorpus (29/32) 10).bind
        (fun pr => iterLoop reboundCorpus (29/32) 1 pr) = none := by
  refine ⟨?_, ?_, ?_⟩
  · with_unfolding_all decide
  · with_unfolding_all decide
  · with_unfolding_all decide

/-- C6 (amended): for every valid corpus and damping factor in [0,1),
restarting the sweep-until-converged computation from the rank mapping
`iterate_pagerank` returned does terminate, but it may need more than one
sweep before the 0.001 convergence check passes (as `c6_counterexample`
shows). -/
theorem c6_amended_restart_terminates (c : Corpus) (d : ℚ) (fuel0 : ℕ)
    (out : List (Page × ℚ)) (hv : validCorpus c) (hd0 : 0 ≤ d) (hd1 : d < 1)
    (_hout : iterate_pagerank c d fuel0 = some out) :
    ∃ fuel res, iterLoop c d fuel out = some res :=
  iterLoop_terminates c hv hd0 hd1 out

theorem c6_witness :
    validCorpus [(0, [])] ∧ (0:ℚ) ≤ 1/2 ∧ (1:ℚ)/2 < 1
    ∧ iterate_pagerank [(0, [])] (1/2) 1 = some [(0, 1)]
    ∧ ∃ fuel res, iterLoop [(0, [])] (1/2) fuel [(0, 1)] = some res :=
  ⟨by with_unfolding_all decide, by norm_num, by norm_num,
    by with_unfolding_all decide,
    c6_amended_restart_terminates [(0, [])] (1/2) 1 [(0, 1)]
      (by with_unfolding_all decide) (by norm_num) (by norm_num)
      (by with_unfolding_all decide)⟩

/-- C7 counterexample: with damping factor 2, outside [0,1], the iterative
estimator does not reject its input before computing: it runs to completion
and returns a full rank mapping. -/
theorem c7_counterexample :
    iterate_pagerank [(0, [])] 2 2 = some [(0, 1)] := by
  with_unfolding_all decide

/-- C7 (amended): the estimators do not reject a damping factor outside
[0,1] or a sample count below 1 before computation begins — no validation is
performed and no error is raised up front.  Witnessed concretely on the
single-page graph: with damping factor 2 the sampler (one sample) and with
damping factor 3/2 the iterator both compute and return the full rank
mapping `{0: 1}`, and with sample count -1 the sampler runs its (empty)
sampling loop and returns the all-zero mapping rather than rejecting.  (This
does not assert that every invalid input runs to completion: a sample count
of exactly 0 makes the Python code raise ZeroDivisionError at the final
`counts[page] / n` — after the sampling loop, not as an upfront rejection —
and an out-of-range damping factor can make the iteration diverge on other
graphs.) -/
theorem c7_amended_no_validation :
    sample_pagerank [(0, [])] 2 1 0 (fun _ _ => 0) = [(0, 1)]
    ∧ sample_pagerank [(0, [])] (1/2) (-1) 0 (fun _ _ => 0) = [(0, 0)]
    ∧ iterate_pagerank [(0, [])] (3/2) 2 = some [(0, 1)] := by
  refine ⟨?_, ?_, ?_⟩
  · with_unfolding_all decide
  · with_unfolding_all decide
  · with_unfolding_all decide

/-- C8: on the single-page graph `{0: {}}`, both estimators return the rank
mapping `{0: 1}` exactly, for every damping factor in [0,1], every sample
count ≥ 1 (with any weighted-choice oracle that picks from the offered
distribution), and any fuel ≥ 1 for the iterator. -/
theorem c8_single_page (d : ℚ) (n : ℤ) (fuel : ℕ)
    (pick : ℕ → List (Page × ℚ) → Page)
    (_hd0 : 0 ≤ d) (_hd1 : d ≤ 1) (hn : 1 ≤ n) (hfuel : 1 ≤ fuel)
    (hpick : ∀ i m, m ≠ [] → pick i m ∈ m.map Prod.fst) :
    sample_pagerank [(0, [])] d n 0 pick = [(0, 1)]
    ∧ iterate_pagerank [(0, [])] d fuel = some [(0, 1)] :=
  ⟨sample_single d hn pick hpick, iterate_single d fuel hfuel⟩

theorem c8_witness :
    (0:ℚ) ≤ 17/20 ∧ (17:ℚ)/20 ≤ 1 ∧ (1 ≤ (3:ℤ)) ∧ (1 ≤ (1:ℕ))
    ∧ (∀ i m, m ≠ [] →
        (fun (_ : ℕ) (m : List (Page × ℚ)) => (m.headD (0, 0)).1) i m
          ∈ m.map Prod.fst)
    ∧ (sample_pagerank [(0, [])] (17/20) 3 0
        (fun _ m => (m.headD (0, 0)).1) = [(0, 1)]
      ∧ iterate_pagerank [(0, [])] (17/20) 1 = some [(0, 1)]) := by
  have hpick : ∀ i m, m ≠ [] →
      (fun (_ : ℕ) (m : List (Page × ℚ)) => (m.headD (0, 0)).1) i m
        ∈ m.map Prod.fst := by
    intro i m hm
    cases m with
    | nil => exact absurd rfl hm
    | cons a t => simp
  exact ⟨by norm_num, by norm_num, by norm_num, by norm_num, hpick,
    c8_single_page (17/20) 3 1 (fun _ m => (m.headD (0, 0)).1)
      (by norm_num) (by norm_num) (by norm_num) (by norm_num) hpick⟩

/-- C9: `iterate_pagerank` is deterministic — it is a pure function of the
corpus and the damping factor (its embedding takes no randomness, unlike the
sampler's), so two runs on identical inputs produce identical outputs. -/
theorem c9_deterministic (c1 c2 : Corpus) (d1 d2 : ℚ) (fuel : ℕ)
    (hc : c1 = c2) (hd : d1 = d2) :
    iterate_pagerank c1 d1 fuel = iterate_pagerank c2 d2 fuel := by
  rw [hc, hd]

theorem c9_witness :
    ([(0, [1]), (1, [0])] : Corpus) = [(0, [1]), (1, [0])]
    ∧ ((17:ℚ)/20) = 17/20
    ∧ iterate_pagerank [(0, [1]), (1, [0])] (17/20) 1
        = iterate_pagerank [(0, [1]), (1, [0])] (17/20) 1 :=
  ⟨rfl, rfl,
    c9_deterministic [(0, [1]), (1, [0])] [(0, [1]), (1, [0])]
      (17/20) (17/20) 1 rfl rfl⟩

/-- C10: every division in `iterate_pagerank` has a non-zero divisor: the
page count N is at least 1; every effective link list (a dangling page's
links being replaced by the full key set) has length at least 1; each sweep's
total rank equals (1-d) + d times the previous lookup total; and whenever the
loop returns, the pre-normalization ranks sum to a strictly positive total
(in fact exactly 1). -/
theorem c10_divisors_nonzero (c : Corpus) (d : ℚ) (hv : validCorpus c)
    (hd0 : 0 ≤ d) (hd1 : d ≤ 1) :
    1 ≤ c.length
    ∧ (∀ e ∈ c, 1 ≤ (effLinks c e.2).length)
    ∧ (∀ pr, ((sweep c d pr).map Prod.snd).sum
        = (1 - d) + d * (c.map (fun e => lookupRank pr e.1)).sum)
    ∧ (∀ fuel res, iterLoop c d fuel (initRank c) = some res →
        0 < (res.map Prod.snd).sum) := by
  refine ⟨List.length_pos.mpr hv.1, ?_, ?_, ?_⟩
  · intro e he
    exact effLinks_length_pos hv he
  · intro pr
    exact sweep_rankSum c hv d pr
  · intro fuel res h
    have hinv := iterLoop_inv c hv hd0 hd1 fuel (initRank c) res h
      (initRank_nonneg c) (initRank_sum c hv)
    rw [hinv.2.1]
    norm_num

theorem c10_witness :
    validCorpus [(0, [1]), (1, [0])] ∧ (0:ℚ) ≤ 17/20 ∧ (17:ℚ)/20 ≤ 1
    ∧ (1 ≤ ([(0, [1]), (1, [0])] : Corpus).length
      ∧ (∀ e ∈ ([(0, [1]), (1, [0])] : Corpus),
          1 ≤ (effLinks [(0, [1]), (1, [0])] e.2).length)
      ∧ (∀ pr, ((sweep [(0, [1]), (1, [0])] (17/20) pr).map Prod.snd).sum
          = (1 - 17/20)
            + (17/20) * (([(0, [1]), (1, [0])] : Corpus).map
                (fun e => lookupRank pr e.1)).sum)
      ∧ (∀ fuel res,
          iterLoop [(0, [1]), (1, [0])] (17/20) fuel
              (initRank [(0, [1]), (1, [0])]) = some res →
          0 < (res.map Prod.snd).sum)) :=
  ⟨by with_unfolding_all decide, by norm_num, by norm_num,
    c10_divisors_nonzero [(0, [1]), (1, [0])] (17/20)
      (by with_unfolding_all decide) (by norm_num) (by norm_num)⟩

end PageRank
